import Mathlib

/-!
Verification development for the scrape coordinator of `work_python`
(`scraper/scraper/**`): a shallow embedding, in Lean, of the proxy pool
(`web/proxy.py`), the web controller (`web/controller.py`), the target engine
(`etl/target.py`) and the extraction layer (`etl/extraction.py`,
`etl/funcs.py`), together with theorems settling the specified properties.

External effects (HTTP probes, Selenium navigation, Docker) are modelled as
oracle parameters; the data-structure manipulation and control flow are
translated directly from the Python source.  Python strings are modelled as
`String`/`List Char`, with Python's `str.replace`, `str.split` and
`str.strip` embedded as structural functions so that concrete runs reduce in
the kernel.
-/

/-! ## Python string primitives -/

/-- Python `str.replace(old, new)` for a one-character `old`: every
occurrence of the character is replaced by `new` (possibly empty), scanning
left to right. -/
def pyReplaceChar (old : Char) (new : List Char) (l : List Char) : List Char :=
  l.flatMap (fun c => if c = old then new else [c])

/-- Does `sep` occur at the head of `l`?  (Python substring match at the
current scan position.) -/
def leadsWith : List Char → List Char → Bool
  | [], _ => true
  | _ :: _, [] => false
  | a :: as, b :: bs => a == b && leadsWith as bs

/-- Python whitespace for `str.strip()`. -/
def pySpace (c : Char) : Bool :=
  c == ' ' || c == '\t' || c == '\n' || c == '\r' || c == '\x0b' || c == '\x0c'

/-- Python `str.strip()`: drop leading and trailing whitespace. -/
def pyStrip (l : List Char) : List Char :=
  ((l.dropWhile pySpace).reverse.dropWhile pySpace).reverse

/-- Worker for Python `str.split(sep)` with a non-empty separator: `fuel`
bounds the number of consumed characters (callers pass the input length, so
the `fuel = 0` branch is unreachable); `acc` holds the current segment in
reverse. -/
def pySplitAux (sep : List Char) : Nat → List Char → List Char → List (List Char)
  | _, acc, [] => [acc.reverse]
  | 0, acc, l => [acc.reverse ++ l]
  | fuel + 1, acc, c :: rest =>
    if leadsWith sep (c :: rest) then
      acc.reverse :: pySplitAux sep fuel [] (rest.drop (sep.length - 1))
    else
      pySplitAux sep fuel (c :: acc) rest

/-- Python `str.split(sep)` for a non-empty separator: split on
non-overlapping occurrences, scanning left to right. -/
def pySplit (sep : List Char) (l : List Char) : List (List Char) :=
  pySplitAux sep l.length [] l

/-! ## `etl/funcs.py`: cell-text cleaning and timestamps -/

/-- Embeds `funcs.sanitize_data`: the chain
`data.replace(",", "").replace("\t", " ").replace("\n", " ").replace("\r", "")`
(each pattern is a single character, so each `str.replace` is a per-character
substitution), then `None` iff the cleaned string equals a configured invalid
sentinel.  `none` models Python `None`. -/
def sanitize_data (data : String) (invalid_output : List String) : Option String :=
  let cleaned := String.mk
    (pyReplaceChar '\r' []
      (pyReplaceChar '\n' [' ']
        (pyReplaceChar '\t' [' ']
          (pyReplaceChar ',' [] data.data))))
  if cleaned ∈ invalid_output then none else some cleaned

/-- The cell-cleaning function as the specification sentence words it
(refinement comparison only, not translated from the source): strip the
input, replace each of comma, tab, `\n` and `\r` with a space, then the same
sentinel check. -/
def sanitize_data_claimed (data : String) (invalid_output : List String) : Option String :=
  let cleaned := String.mk
    ((pyStrip data.data).map
      (fun c => if c = ',' ∨ c = '\t' ∨ c = '\n' ∨ c = '\r' then ' ' else c))
  if cleaned ∈ invalid_output then none else some cleaned

/-- Per-character action that the source's replace chain amounts to: commas
and carriage returns are deleted, tabs and newlines become spaces, everything
else is kept. -/
def cleanCharAmended : Char → Option Char := fun c =>
  if c = ',' then none
  else if c = '\t' then some ' '
  else if c = '\n' then some ' '
  else if c = '\r' then none
  else some c

/-! ## `web/proxy.py`: the proxy pool

The pool is the Python dict `proxy_pool : dict[str, tuple[int, bool]]`,
modelled as an insertion-ordered association list (Python dicts preserve
insertion order; updating an existing key keeps its position, new keys are
appended).  The configuration mirrors `ProxyConfig`; the source file's
contents and the outcome of the per-proxy HTTP liveness probe are oracle
parameters. -/

abbrev Proxy := String

structure ProxyCfg where
  usage_limit : Nat
  validation : Bool
  fileEntries : List Proxy
  validFn : Proxy → Bool

structure PoolState where
  pool : List (Proxy × Nat × Bool)
deriving DecidableEq

/-- The keys of the pool dict, in insertion order. -/
def poolKeys (st : PoolState) : List Proxy :=
  st.pool.map (fun e => e.1)

/-- Python `self.proxy_pool[proxy]` guarded by `proxy in self.proxy_pool`. -/
def lookupProxy (st : PoolState) (p : Proxy) : Option (Nat × Bool) :=
  (st.pool.find? (fun e => e.1 == p)).map (fun e => e.2)

/-- Python dict assignment `pool[p] = v`: update in place if the key exists,
else append. -/
def dictSet (pool : List (Proxy × Nat × Bool)) (p : Proxy) (v : Nat × Bool) :
    List (Proxy × Nat × Bool) :=
  if pool.any (fun e => e.1 == p) then
    pool.map (fun e => if e.1 == p then (p, v) else e)
  else
    pool ++ [(p, v)]

/-- Embeds `ProxyManager.remove_proxy_from_pool`: `del self.proxy_pool[proxy]`
when present (a no-op otherwise, matching the `if proxy in self.proxy_pool`
guard). -/
def remove_proxy_from_pool (st : PoolState) (p : Proxy) : PoolState :=
  ⟨st.pool.filter (fun e => !(e.1 == p))⟩

/-- The `for proxy, (usage, in_use) in self.proxy_pool.items()` scan of
`get_available_proxy`: first entry with `usage < usage_limit` and not
`in_use` is flipped to `(usage + 1, True)` in place and returned. -/
def scanPool (limit : Nat) : List (Proxy × Nat × Bool) →
    Option (Proxy × List (Proxy × Nat × Bool))
  | [] => none
  | (p, usage, in_use) :: rest =>
    if usage < limit ∧ in_use = false then
      some (p, (p, usage + 1, true) :: rest)
    else
      (scanPool limit rest).map (fun r => (r.1, (p, usage, in_use) :: r.2))

/-- Result of `get_available_proxy` / `reload_proxy_pool`: a proxy, the
`ProxyReloadError` exception, or non-termination of the mutual recursion
(`spin` is reached only when the fuel underestimates the recursion depth). -/
inductive AcqResult where
  | ok (p : Proxy)
  | reloadError
  | spin
deriving DecidableEq

/-- Python `set(self.load_proxies_from_file()) - set(self.proxy_pool.keys())`,
modelled in first-occurrence file order (Python set iteration order is
unspecified). -/
def newEntries (cfg : ProxyCfg) (st : PoolState) : List Proxy :=
  cfg.fileEntries.eraseDups.filter (fun q => !((poolKeys st).contains q))

/-- Embeds the mutual recursion `get_available_proxy` ⇄ `reload_proxy_pool`:
scan the pool; on miss, compute the fresh file entries, raise
`ProxyReloadError` if there are none, otherwise insert the validation
survivors as `(0, False)` and recurse.  The third component counts the
reload passes taken before the result.  `fuel` bounds the recursion depth
(the Python code recurses unboundedly when validation filters out every
fresh entry). -/
def get_available_proxyAux (cfg : ProxyCfg) : Nat → PoolState → AcqResult × PoolState × Nat
  | 0, st => (.spin, st, 0)
  | fuel + 1, st =>
    match scanPool cfg.usage_limit st.pool with
    | some (p, pool') => (.ok p, ⟨pool'⟩, 0)
    | none =>
      let fresh := newEntries cfg st
      if fresh.isEmpty then
        (.reloadError, st, 0)
      else
        let survivors := if cfg.validation then fresh.filter cfg.validFn else fresh
        let st' : PoolState := ⟨st.pool ++ survivors.map (fun q => (q, 0, false))⟩
        let r := get_available_proxyAux cfg fuel st'
        (r.1, r.2.1, r.2.2 + 1)

/-- Embeds `ProxyManager.reload_proxy_pool` as a direct entry point: reread
the file, raise `ProxyReloadError` when no fresh entries exist, else insert
the survivors and return `get_available_proxy()`. -/
def reload_proxy_pool (cfg : ProxyCfg) (fuel : Nat) (st : PoolState) :
    AcqResult × PoolState × Nat :=
  let fresh := newEntries cfg st
  if fresh.isEmpty then
    (.reloadError, st, 0)
  else
    let survivors := if cfg.validation then fresh.filter cfg.validFn else fresh
    let st' : PoolState := ⟨st.pool ++ survivors.map (fun q => (q, 0, false))⟩
    let r := get_available_proxyAux cfg fuel st'
    (r.1, r.2.1, r.2.2 + 1)

/-- Embeds `ProxyManager.increment_proxy_usage`.  The boolean is `true` when
the Python code raised `UsageError` (after evicting the proxy); a proxy not
in the pool is silently ignored. -/
def increment_proxy_usage (cfg : ProxyCfg) (st : PoolState) (p : Proxy) :
    PoolState × Bool :=
  match lookupProxy st p with
  | none => (st, false)
  | some (usage, _) =>
    if usage < cfg.usage_limit then
      (⟨dictSet st.pool p (usage + 1, true)⟩, false)
    else
      (remove_proxy_from_pool st p, true)

/-- Embeds `ProxyManager.release_proxy`: clear `in_use` while under the
limit, evict silently otherwise; unknown proxies are ignored. -/
def release_proxy (cfg : ProxyCfg) (st : PoolState) (p : Proxy) : PoolState :=
  match lookupProxy st p with
  | none => st
  | some (usage, _) =>
    if usage < cfg.usage_limit then
      ⟨dictSet st.pool p (usage, false)⟩
    else
      remove_proxy_from_pool st p

/-- The pool-mutating operations of `ProxyManager`, for stating invariants
over arbitrary operation sequences. -/
inductive PoolOp where
  | acquire (fuel : Nat)
  | reload (fuel : Nat)
  | increment (p : Proxy)
  | release (p : Proxy)
  | remove (p : Proxy)

/-- State reached after one `ProxyManager` operation (exceptions leave the
state the code left behind: `increment` evicts before raising `UsageError`,
a failing reload leaves the pool unchanged). -/
def applyPoolOp (cfg : ProxyCfg) (st : PoolState) : PoolOp → PoolState
  | .acquire fuel => (get_available_proxyAux cfg fuel st).2.1
  | .reload fuel => (reload_proxy_pool cfg fuel st).2.1
  | .increment p => (increment_proxy_usage cfg st p).1
  | .release p => release_proxy cfg st p
  | .remove p => remove_proxy_from_pool st p

/-- State after a sequence of `ProxyManager` operations. -/
def applyPoolOps (cfg : ProxyCfg) (st : PoolState) (ops : List PoolOp) : PoolState :=
  ops.foldl (applyPoolOp cfg) st

/-- The pool invariant of the specification: every use count is at most
`usage_limit` (counts are naturals, so `0 ≤ use_count` is inherent). -/
def PoolInv (cfg : ProxyCfg) (st : PoolState) : Prop :=
  ∀ e ∈ st.pool, e.2.1 ≤ cfg.usage_limit

/-- Predicate: `p` is exhausted in `st`: every pool entry keyed `p` carries a use count
at least `usage_limit`. -/
def ExhaustedIn (cfg : ProxyCfg) (st : PoolState) (p : Proxy) : Prop :=
  ∀ u b, (p, u, b) ∈ st.pool → cfg.usage_limit ≤ u

/-! ## `web/controller.py`: the web controller

Selenium navigation, Docker container creation and driver creation are
external effects; they enter the model as oracles: `nav` gives the outcome
of `driver.get(url)` on each attempt, `containerResult`/`driverResult` give
the outcome of the corresponding `create` call. -/

/-- Outcome of one `driver.get(url)` call: success, a Selenium
`TimeoutException`, or any other exception. -/
inductive NavOutcome where
  | success
  | timeout
  | failure
deriving DecidableEq

/-- Exception leaving `WebController.make_request`: the final
`TimeoutException`, the re-raised `UsageError` from the proxy increment, or a
re-raised non-timeout error. -/
inductive FetchErr where
  | timeoutError
  | usageError
  | otherError
deriving DecidableEq

/-- Source constant `max_retries = 2  # Allows for a total of 3 attempts`. -/
def max_retries : Nat := 2

/-- Embeds the `while attempt <= max_retries` loop of
`WebController.make_request`: navigate, and on success run
`increment_proxy_usage` on the connection's proxy (re-raising its
`UsageError`); on `TimeoutException` sleep `(attempt + 1) * 2` seconds and
retry while attempts remain, else raise; any other exception is re-raised.
Returns (exception?, pool state, recorded sleep durations); `fuel` is
structural (the wrapper passes `max_retries + 1`, which the loop never
exceeds). -/
def make_requestAux (cfg : ProxyCfg) (nav : Nat → NavOutcome) (p : Proxy) :
    Nat → Nat → PoolState → Option FetchErr × PoolState × List Nat
  | 0, _, st => (some .timeoutError, st, [])
  | fuel + 1, attempt, st =>
    match nav attempt with
    | .success =>
      let r := increment_proxy_usage cfg st p
      if r.2 then (some .usageError, r.1, []) else (none, r.1, [])
    | .failure => (some .otherError, st, [])
    | .timeout =>
      if attempt < max_retries then
        let r := make_requestAux cfg nav p fuel (attempt + 1) st
        (r.1, r.2.1, (attempt + 1) * 2 :: r.2.2)
      else
        (some .timeoutError, st, [])

/-- Embeds `WebController.make_request` (the `fetch` primitive). -/
def make_request (cfg : ProxyCfg) (nav : Nat → NavOutcome) (p : Proxy)
    (st : PoolState) : Option FetchErr × PoolState × List Nat :=
  make_requestAux cfg nav p (max_retries + 1) 0 st

/-- Embeds `utils/connection.py: ConnectionData`: name, host port, and the
three optional resource fields (`None` until set). -/
structure ConnectionData where
  name : String
  port : Nat
  proxy : Option Proxy := none
  container : Option Unit := none
  driver : Option Unit := none
deriving DecidableEq

/-- Embeds `WebController.connect_container`: on a creation failure the
exception is caught and logged inside this helper, leaving the field unset. -/
def connect_container (c : ConnectionData) (containerResult : Option Unit) :
    ConnectionData :=
  match containerResult with
  | some h => { c with container := some h }
  | none => c

/-- Embeds `WebController.connect_driver`: same swallow-and-log behaviour as
`connect_container`. -/
def connect_driver (c : ConnectionData) (driverResult : Option Unit) :
    ConnectionData :=
  match driverResult with
  | some h => { c with driver := some h }
  | none => c

/-- Embeds `WebController.connect_resources`: run the three operations in
order; only the proxy step can raise out of its lambda (the other two catch
internally), and only a raising operation clears the `successful` flag.  The
proxy result is assigned to the connection on success. -/
def connect_resources (cfg : ProxyCfg) (fuel : Nat) (st : PoolState)
    (c : ConnectionData) (containerResult driverResult : Option Unit) :
    Bool × ConnectionData × PoolState :=
  let a := get_available_proxyAux cfg fuel st
  let step1 : Bool × ConnectionData × PoolState :=
    match a with
    | (.ok p, st', _) => (true, { c with proxy := some p }, st')
    | (_, st', _) => (false, c, st')
  let c₂ := connect_container step1.2.1 containerResult
  let c₃ := connect_driver c₂ driverResult
  (step1.1, c₃, step1.2.2)

/-! ## `etl/target.py`: the target engine -/

/-- Outcome of one `controller.make_request` call as seen by
`TargetManager.get_target_link`: success, a `UsageError`, or any other
exception. -/
inductive ReqOutcome where
  | ok
  | usage
  | other
deriving DecidableEq

/-- Result of `TargetManager.get_target_link` for one URL: returned normally
after a successful request, returned normally after logging a non-`UsageError`
exception (the URL is skipped), or propagated `UsageError`. -/
inductive GTLOutcome where
  | completed
  | skipped
  | raisedUsage
deriving DecidableEq

/-- Source constant `self.retry_limit = 3` in `TargetManager.__init__`. -/
def retry_limit : Nat := 3

/-- Embeds the recursion of `TargetManager.get_target_link`: attempt the
request; on `UsageError` with `retry_count < retry_limit`, rotate the proxy,
re-run the startup sequence and recurse with the counter incremented, else
re-raise `UsageError`; any other exception is logged and swallowed.  The
second component counts the rotate-and-startup cycles performed.  `fuel` is
structural (the wrapper passes one more than the remaining retry budget). -/
def get_target_linkAux (req : Nat → ReqOutcome) (limit : Nat) :
    Nat → Nat → GTLOutcome × Nat
  | 0, _ => (.raisedUsage, 0)
  | fuel + 1, retry_count =>
    match req retry_count with
    | .ok => (.completed, 0)
    | .other => (.skipped, 0)
    | .usage =>
      if retry_count < limit then
        let r := get_target_linkAux req limit fuel (retry_count + 1)
        (r.1, r.2 + 1)
      else
        (.raisedUsage, 0)

/-- Embeds `TargetManager.get_target_link` entered at `retry_count`. -/
def get_target_link (req : Nat → ReqOutcome) (retry_count : Nat) :
    GTLOutcome × Nat :=
  get_target_linkAux req retry_limit (retry_limit + 1 - retry_count) retry_count

/-! ## `etl/extraction.py`: extraction rows

BeautifulSoup parsing is modelled by projecting a page element onto the data
the extraction code reads from it: for a plain element, the text returned by
`soup.get_text(separator="&&&", strip=True)` after tag exclusion; for a table
cell, its stripped text and the `href` of its first `<a href>` child. -/

/-- A table cell as read by `issuer_table`: `cell.get_text(strip=True)` and
the first `<a href=...>` inside the cell, if any. -/
structure CellModel where
  text : String
  href : Option String
deriving DecidableEq

/-- Embeds `ExtractionManager.parse_element`: split the element text on the
`"&&&"` separator, keep the entries that are non-blank after `strip()`, and
clean each with `sanitize_data`.  The result is ONE row (a list of cleaned
segments); no timestamp and no supplemental data are appended here. -/
def parse_element (text : String) (invalid : List String) : List (Option String) :=
  (((pySplit "&&&".data text.data).filter
      (fun e => !(pyStrip e).isEmpty)).map
    (fun e => sanitize_data (String.mk e) invalid))

/-- The `ExtractionType.ELEMENT` arm of `perform_extraction`:
`[self.parse_element(element, extraction)]`. -/
def perform_extraction_element (text : String) (invalid : List String) :
    List (List (Option String)) :=
  [parse_element text invalid]

/-- Embeds `ExtractionManager.issuer_table`: for each `<tr>`, for each cell,
append the cleaned cell text when non-empty and
`"https://emma.msrb.org" + href` for the cell's first `<a href>`; then append
`timestamp()` (passed in as `ts`) and extend with the supplemental data. -/
def issuer_table (rows : List (List CellModel)) (invalid : List String)
    (supplemental_data : List String) (ts : String) :
    List (List (Option String)) :=
  rows.map (fun cells =>
    (cells.flatMap (fun cell =>
      (if cell.text ≠ "" then [sanitize_data cell.text invalid] else []) ++
      (match cell.href with
       | some h => [some ("https://emma.msrb.org" ++ h)]
       | none => [])))
    ++ [some ts] ++ supplemental_data.map some)

/-- A table cell as read by `issue_scale_table`: the stripped cell text; the
pair (`a['href']`, nested `img['src']`) for the cell's first `<a href>` — the
source subscripts `a_tag.find('img', src=True)['src']` unconditionally, so a
linked cell without an image raises and aborts the whole table as
`ParseTableException`, and a projected cell of a non-raising run always
carries both; and the `src` of the cell's first `<img src=… data-rating=…>`. -/
structure ScaleCellModel where
  text : String
  link : Option (String × String)
  rating : Option String
deriving DecidableEq

/-- Python `cusip_link.split('/')[-1]`: the last slash-separated segment. -/
def lastPathSegment (s : String) : String :=
  String.mk ((pySplit ['/'] s.data).getLastD [])

/-- Embeds `ExtractionManager.issue_scale_table`: as `issuer_table`, plus for
a cell with an `<a href><img …>` the CUSIP image is OCRed on the composite
connection's driver when the manager holds a controller (`ocr = some f`),
appending the recognized CUSIP, then the link, then the link's last path
segment; without a controller the raw image URL and the link are appended.
An `<img data-rating>` likewise appends the OCRed rating or the raw image
URL.  `ocr` is the oracle for `cusip_ocr`/`rating_ocr`, keyed by image URL
(an OCR failure yields the literal `"OCR Failure"` inside the oracle). -/
def issue_scale_table (rows : List (List ScaleCellModel)) (invalid : List String)
    (supplemental_data : List String) (ts : String)
    (ocr : Option (String → String)) : List (List (Option String)) :=
  rows.map (fun cells =>
    (cells.flatMap (fun cell =>
      (if cell.text ≠ "" then [sanitize_data cell.text invalid] else []) ++
      (match cell.link with
       | some hrefImg =>
         match ocr with
         | some f =>
           [some (f ("https://emma.msrb.org" ++ hrefImg.2)),
            some ("https://emma.msrb.org" ++ hrefImg.1),
            some (lastPathSegment ("https://emma.msrb.org" ++ hrefImg.1))]
         | none =>
           [some ("https://emma.msrb.org" ++ hrefImg.2),
            some ("https://emma.msrb.org" ++ hrefImg.1)]
       | none => []) ++
      (match cell.rating with
       | some rsrc =>
         match ocr with
         | some f => [some (f ("https://emma.msrb.org" ++ rsrc))]
         | none => [some ("https://emma.msrb.org" ++ rsrc)]
       | none => [])))
    ++ [some ts] ++ supplemental_data.map some)

/-! ## `etl/funcs.py::paginate` and
`ExtractionManager.perform_paginated_extraction`

The rendered pagination container on each visited page is projected onto
what `paginate` reads: the integer texts of the `a.paginate_button` links,
the state of `a.paginate_button.next`, and whether the fallback
`element_to_be_clickable` wait on the pagination container itself succeeds.
`view i` is the state after `i` clicks; `extract i` is what
`perform_extraction` returns on that page. -/

/-- State of the `a.paginate_button.next` button on a page. -/
inductive NextSignal where
  | enabled
  | disabled
  | absent
deriving DecidableEq

structure PageView where
  pageNums : List Nat
  next : NextSignal
  containerClickable : Bool
deriving DecidableEq

/-- What `paginate` hands back as `next_button`: the Next button itself, or —
via the `NoSuchElementException` fallback that waits for the *pagination
container's own locator* to be clickable — the container element. -/
inductive NextRef where
  | nextButton
  | containerElem
deriving DecidableEq

/-- Python `max(page_numbers) if page_numbers else 1` over the integer texts of the
`a.paginate_button` links. -/
def discover_max_pages (v : PageView) : Nat :=
  match v.pageNums with
  | [] => 1
  | n :: rest => rest.foldl Nat.max n

/-- Embeds `funcs.paginate`: the discovered page count, and the `next_button`
result — `None` when Next carries class `disabled`, the button when present
and enabled, and on `NoSuchElementException` the fallback wait on the
pagination container (`None` only if that wait times out). -/
def paginate (v : PageView) : Nat × Option NextRef :=
  let maxPages := discover_max_pages v
  match v.next with
  | .disabled => (maxPages, none)
  | .enabled => (maxPages, some .nextButton)
  | .absent =>
    if v.containerClickable then (maxPages, some .containerElem) else (maxPages, none)

/-- Embeds the `while page_count < max_pages` loop of
`perform_paginated_extraction`: extract the current page, advance the
counter, click `next_button` and refresh it via `paginate` when present,
break otherwise.  Returns the accumulated rows and the number of extraction
passes; `remaining` is `max_pages - page_count`. -/
def paginated_extractionGo (extract : Nat → List (List (Option String)))
    (view : Nat → PageView) :
    Nat → Nat → Option NextRef → List (List (Option String)) × Nat
  | 0, _, _ => ([], 0)
  | remaining + 1, idx, nextBtn =>
    let page := extract idx
    match nextBtn with
    | none => (page, 1)
    | some _ =>
      let nb' := (paginate (view (idx + 1))).2
      let r := paginated_extractionGo extract view remaining (idx + 1) nb'
      (page ++ r.1, r.2 + 1)

/-- Embeds `ExtractionManager.perform_paginated_extraction`: one initial
`paginate` call fixes `max_pages` and the first `next_button`, then the
extraction loop runs. -/
def perform_paginated_extraction (extract : Nat → List (List (Option String)))
    (view : Nat → PageView) : List (List (Option String)) × Nat :=
  let r := paginate (view 0)
  paginated_extractionGo extract view r.1 0 r.2

/-- A rendered page of the OS tab as read by `issue_os_table`: per `<tr>`,
per cell, the `href` of the cell's first `<a href>` (`none` when the cell has
no link), and the state of the tab's `.paginate_button.next` control. -/
structure OsPageView where
  rows : List (List (Option String))
  next : NextSignal
deriving DecidableEq

/-- Embeds `funcs.paginate_tab`: `False` when the Next button is absent
(`NoSuchElementException`) or carries the class `disabled`; otherwise click
it and return `True`. -/
def paginate_tab (v : OsPageView) : Bool :=
  match v.next with
  | .enabled => true
  | .disabled => false
  | .absent => false

/-- One `<tr>` of the OS tab: `"https://emma.msrb.org" + href` is collected
for each linked cell, then `timestamp()` (passed as `ts`) is appended and the
supplemental data extended. -/
def issue_os_row (cells : List (Option String)) (supplemental_data : List String)
    (ts : String) : List (Option String) :=
  (cells.filterMap (fun c => c.map (fun h => some ("https://emma.msrb.org" ++ h))))
    ++ [some ts] ++ supplemental_data.map some

/-- One page's contribution to `issue_os_table`: a row is kept only when it
has exactly 7 fields (`if len(row_data) == 7`). -/
def issue_os_page (v : OsPageView) (supplemental_data : List String) (ts : String) :
    List (List (Option String)) :=
  v.rows.filterMap (fun cells =>
    let row_data := issue_os_row cells supplemental_data ts
    if row_data.length = 7 then some row_data else none)

/-- Embeds the `while True` loop of `ExtractionManager.issue_os_table`:
collect the current page's qualifying rows, then `paginate_tab`; continue on
`True`, break on `False`.  `view i` is the tab after `i` clicks; `fuel`
bounds the loop (the Python loop terminates exactly when some page's Next
control is absent or disabled). -/
def issue_os_tableGo (view : Nat → OsPageView) (supplemental_data : List String)
    (ts : String) : Nat → Nat → List (List (Option String))
  | 0, _ => []
  | fuel + 1, idx =>
    let page := issue_os_page (view idx) supplemental_data ts
    if paginate_tab (view idx) then
      page ++ issue_os_tableGo view supplemental_data ts fuel (idx + 1)
    else
      page

/-- Embeds `ExtractionManager.issue_os_table`, entered on the freshly opened
OS tab. -/
def issue_os_table (view : Nat → OsPageView) (supplemental_data : List String)
    (ts : String) (fuel : Nat) : List (List (Option String)) :=
  issue_os_tableGo view supplemental_data ts fuel 0

/-! ## `TargetManager.extractions`: the per-target output loop -/

/-- One declared extraction, reduced to the field the output step uses. -/
structure ExtractionStep where
  output_file : String
deriving DecidableEq

/-- Outcome of `perform_extraction`/`perform_paginated_extraction` for one
declared extraction: the produced rows, or an exception (caught and logged by
the loop). -/
inductive ExtOutcome where
  | ok (rows : List (List (Option String)))
  | raised
deriving DecidableEq

/-- What reaches `write_output` on each loop iteration: the rows passed
together with the output file, or the `NameError` from referencing the
never-assigned `data` variable (caught by the second `try` and logged). -/
inductive WriteAttempt where
  | wrote (file : String) (rows : List (List (Option String)))
  | unboundData (file : String)
deriving DecidableEq

/-- Embeds the `for extraction in target.extractions` loop of
`TargetManager.extractions`: the first `try` assigns the local `data` only
when the extraction succeeds (on an exception `data` keeps its previous
value, or stays unbound before the first success); the second `try` always
calls `write_output` with the current `data`. -/
def extractionsGo (dataVar : Option (List (List (Option String)))) :
    List (ExtractionStep × ExtOutcome) → List WriteAttempt
  | [] => []
  | (step, outcome) :: rest =>
    let dataVar' :=
      match outcome with
      | .ok rows => some rows
      | .raised => dataVar
    let ev :=
      match dataVar' with
      | some rows => WriteAttempt.wrote step.output_file rows
      | none => WriteAttempt.unboundData step.output_file
    ev :: extractionsGo dataVar' rest

/-- Embeds `TargetManager.extractions` (the loop starts with `data`
unbound). -/
def extractions (steps : List (ExtractionStep × ExtOutcome)) : List WriteAttempt :=
  extractionsGo none steps

/-- The value of the loop's `data` variable after processing `steps`. -/
def lastData (dataVar : Option (List (List (Option String)))) :
    List (ExtractionStep × ExtOutcome) → Option (List (List (Option String)))
  | [] => dataVar
  | (_, .ok rows) :: rest => lastData (some rows) rest
  | (_, .raised) :: rest => lastData dataVar rest

/-! ## Supporting lemmas: the pool scan -/

lemma scanPool_cons (limit : Nat) (p : Proxy) (u : Nat) (b : Bool)
    (rest : List (Proxy × Nat × Bool)) :
    scanPool limit ((p, u, b) :: rest) =
      if u < limit ∧ b = false then some (p, (p, u + 1, true) :: rest)
      else (scanPool limit rest).map (fun r => (r.1, (p, u, b) :: r.2)) := rfl

lemma scanPool_mem_of_some {limit : Nat} :
    ∀ {pool pool' : List (Proxy × Nat × Bool)} {q : Proxy},
      scanPool limit pool = some (q, pool') →
      ∃ u, (q, u, false) ∈ pool ∧ u < limit := by
  intro pool
  induction pool with
  | nil => intro pool' q h; simp [scanPool] at h
  | cons e₀ rest ih =>
    intro pool' q h
    obtain ⟨p, u, b⟩ := e₀
    rw [scanPool_cons] at h
    by_cases hc : u < limit ∧ b = false
    · rw [if_pos hc] at h
      obtain ⟨hq, -⟩ := Prod.mk.injEq .. ▸ Option.some.injEq .. ▸ h
      exact ⟨u, by rw [← hq, ← hc.2]; exact List.mem_cons_self _ _, hc.1⟩
    · rw [if_neg hc] at h
      obtain ⟨⟨r, hr⟩, hscan, hfr⟩ := Option.map_eq_some'.mp h
      have hrq : r = q := congrArg Prod.fst hfr
      obtain ⟨u', hmem, hu'⟩ := ih (hrq ▸ hscan)
      exact ⟨u', List.mem_cons_of_mem _ hmem, hu'⟩

lemma scanPool_shape {limit : Nat} :
    ∀ {pool pool' : List (Proxy × Nat × Bool)} {q : Proxy},
      scanPool limit pool = some (q, pool') →
      ∀ e ∈ pool', e ∈ pool ∨ ∃ u, e = (q, u + 1, true) ∧ u < limit := by
  intro pool
  induction pool with
  | nil => intro pool' q h; simp [scanPool] at h
  | cons e₀ rest ih =>
    intro pool' q h
    obtain ⟨p, u, b⟩ := e₀
    rw [scanPool_cons] at h
    by_cases hc : u < limit ∧ b = false
    · rw [if_pos hc] at h
      injection h with h'
      obtain ⟨hq, hpool⟩ := Prod.mk.injEq .. ▸ h'
      intro e he
      rw [← hpool] at he
      rcases List.mem_cons.mp he with h1 | h2
      · exact Or.inr ⟨u, by rw [h1, hq], hc.1⟩
      · exact Or.inl (List.mem_cons_of_mem _ h2)
    · rw [if_neg hc] at h
      obtain ⟨⟨r, hr⟩, hscan, hfr⟩ := Option.map_eq_some'.mp h
      have hrq : r = q := congrArg Prod.fst hfr
      have hpool : (p, u, b) :: hr = pool' := congrArg Prod.snd hfr
      intro e he
      rw [← hpool] at he
      rcases List.mem_cons.mp he with h1 | h2
      · exact Or.inl (h1 ▸ List.mem_cons_self _ _)
      · rcases ih (hrq ▸ hscan) e h2 with h3 | h4
        · exact Or.inl (List.mem_cons_of_mem _ h3)
        · exact Or.inr h4

lemma scanPool_keys {limit : Nat} :
    ∀ {pool pool' : List (Proxy × Nat × Bool)} {q : Proxy},
      scanPool limit pool = some (q, pool') →
      pool'.map (fun e => e.1) = pool.map (fun e => e.1) := by
  intro pool
  induction pool with
  | nil => intro pool' q h; simp [scanPool] at h
  | cons e₀ rest ih =>
    intro pool' q h
    obtain ⟨p, u, b⟩ := e₀
    rw [scanPool_cons] at h
    by_cases hc : u < limit ∧ b = false
    · rw [if_pos hc] at h
      injection h with h'
      have hq : q = p := (congrArg Prod.fst h').symm
      have hpool : (p, u + 1, true) :: rest = pool' := congrArg Prod.snd h'
      rw [← hpool]
      simp
    · rw [if_neg hc] at h
      obtain ⟨⟨r, hr⟩, hscan, hfr⟩ := Option.map_eq_some'.mp h
      have hrq : r = q := congrArg Prod.fst hfr
      have hpool : (p, u, b) :: hr = pool' := congrArg Prod.snd hfr
      rw [← hpool]
      simp [ih (hrq ▸ hscan)]

lemma scanPool_none_iff {limit : Nat} :
    ∀ {pool : List (Proxy × Nat × Bool)},
      scanPool limit pool = none ↔
        ∀ e ∈ pool, ¬(e.2.1 < limit ∧ e.2.2 = false) := by
  intro pool
  induction pool with
  | nil => simp [scanPool]
  | cons e₀ rest ih =>
    obtain ⟨p, u, b⟩ := e₀
    rw [scanPool_cons]
    by_cases hc : u < limit ∧ b = false
    · rw [if_pos hc]
      constructor
      · intro h; exact absurd h (by simp)
      · intro h
        exact absurd hc (by simpa using h (p, u, b) (List.mem_cons_self _ _))
    · rw [if_neg hc]
      constructor
      · intro h e he
        rcases List.mem_cons.mp he with h1 | h2
        · rw [h1]; exact hc
        · have h0 : scanPool limit rest = none := by
            cases hsc : scanPool limit rest with
            | none => rfl
            | some r => rw [hsc] at h; simp at h
          exact ih.mp h0 e h2
      · intro h
        have h0 : scanPool limit rest = none :=
          ih.mpr (fun e he => h e (List.mem_cons_of_mem _ he))
        rw [h0]; rfl

lemma scanPool_append_none {limit : Nat} :
    ∀ {a b : List (Proxy × Nat × Bool)},
      scanPool limit a = none →
      scanPool limit (a ++ b) =
        (scanPool limit b).map (fun r => (r.1, a ++ r.2)) := by
  intro a
  induction a with
  | nil =>
    intro b _
    cases hsc : scanPool limit b <;> simp [hsc]
  | cons e₀ rest ih =>
    intro b h
    obtain ⟨p, u, bb⟩ := e₀
    rw [scanPool_cons] at h
    by_cases hc : u < limit ∧ bb = false
    · rw [if_pos hc] at h; simp at h
    · rw [if_neg hc] at h
      have h0 : scanPool limit rest = none := by
        cases hsc : scanPool limit rest with
        | none => rfl
        | some r => rw [hsc] at h; simp at h
      rw [List.cons_append, scanPool_cons, if_neg hc, ih h0]
      cases scanPool limit b <;> simp

lemma scanPool_first {limit : Nat} :
    ∀ {pre : List (Proxy × Nat × Bool)} {p : Proxy} {u : Nat}
      {post : List (Proxy × Nat × Bool)},
      (∀ e ∈ pre, ¬(e.2.1 < limit ∧ e.2.2 = false)) →
      u < limit →
      scanPool limit (pre ++ (p, u, false) :: post) =
        some (p, pre ++ (p, u + 1, true) :: post) := by
  intro pre
  induction pre with
  | nil =>
    intro p u post _ hu
    rw [List.nil_append, scanPool_cons, if_pos ⟨hu, rfl⟩, List.nil_append]
  | cons e₀ rest ih =>
    intro p u post hpre hu
    obtain ⟨p₀, u₀, b₀⟩ := e₀
    have h₀ : ¬(u₀ < limit ∧ b₀ = false) :=
      by simpa using hpre (p₀, u₀, b₀) (List.mem_cons_self _ _)
    have hrest : ∀ e ∈ rest, ¬(e.2.1 < limit ∧ e.2.2 = false) :=
      fun e he => hpre e (List.mem_cons_of_mem _ he)
    rw [List.cons_append, scanPool_cons, if_neg h₀, ih hrest hu]
    rfl

/-! ## Supporting lemmas: dict primitives -/

lemma mem_poolKeys {st : PoolState} {p : Proxy} :
    p ∈ poolKeys st ↔ ∃ u b, (p, u, b) ∈ st.pool := by
  unfold poolKeys
  constructor
  · intro h
    obtain ⟨e, he, hkey⟩ := List.mem_map.mp h
    exact ⟨e.2.1, e.2.2, by rwa [show (p, e.2.1, e.2.2) = e from by rw [← hkey]]⟩
  · rintro ⟨u, b, hmem⟩
    exact List.mem_map.mpr ⟨(p, u, b), hmem, rfl⟩

lemma lookup_some_of_mem_keys {st : PoolState} {p : Proxy} :
    p ∈ poolKeys st → ∃ u b, lookupProxy st p = some (u, b) ∧ (p, u, b) ∈ st.pool := by
  intro h
  obtain ⟨u, b, hmem⟩ := mem_poolKeys.mp h
  have hsome : (st.pool.find? (fun e => e.1 == p)).isSome := by
    rw [List.find?_isSome]
    exact ⟨(p, u, b), hmem, by simp⟩
  obtain ⟨e, he⟩ := Option.isSome_iff_exists.mp hsome
  have hkey : e.1 = p := by
    have := List.find?_some he
    simpa using this
  have hmem' : e ∈ st.pool := List.mem_of_find?_eq_some he
  refine ⟨e.2.1, e.2.2, ?_, ?_⟩
  · unfold lookupProxy; rw [he]; rfl
  · rwa [show (p, e.2.1, e.2.2) = e from by rw [← hkey]]

lemma lookup_none_of_not_mem_keys {st : PoolState} {p : Proxy} :
    p ∉ poolKeys st → lookupProxy st p = none := by
  intro h
  unfold lookupProxy
  rw [List.find?_eq_none.mpr]
  · rfl
  · intro e he hbeq
    exact h (mem_poolKeys.mpr ⟨e.2.1, e.2.2,
      by rwa [show (p, e.2.1, e.2.2) = e from by rw [← show e.1 = p from by simpa using hbeq]]⟩)

lemma mem_dictSet {pool : List (Proxy × Nat × Bool)} {p : Proxy} {v : Nat × Bool}
    {e : Proxy × Nat × Bool} :
    e ∈ dictSet pool p v → e ∈ pool ∨ e = (p, v) := by
  intro h
  unfold dictSet at h
  by_cases hin : pool.any (fun e => e.1 == p)
  · rw [if_pos hin] at h
    obtain ⟨e₀, he₀, himg⟩ := List.mem_map.mp h
    by_cases hk : e₀.1 == p
    · rw [if_pos hk] at himg; exact Or.inr himg.symm
    · rw [if_neg hk] at himg; exact Or.inl (himg ▸ he₀)
  · rw [if_neg hin] at h
    rcases List.mem_append.mp h with h1 | h2
    · exact Or.inl h1
    · exact Or.inr (by simpa using h2)

lemma mem_dictSet_other {pool : List (Proxy × Nat × Bool)} {q p : Proxy}
    {v : Nat × Bool} {u : Nat} {b : Bool} :
    (p, u, b) ∈ dictSet pool q v → p ≠ q → (p, u, b) ∈ pool := by
  intro h hne
  rcases mem_dictSet h with h1 | h2
  · exact h1
  · exact absurd (congrArg Prod.fst h2) hne

lemma keys_dictSet_of_mem {pool : List (Proxy × Nat × Bool)} {p : Proxy}
    {v : Nat × Bool} :
    (dictSet pool p v).map (fun e => e.1) = pool.map (fun e => e.1) ∨
      (dictSet pool p v).map (fun e => e.1) = pool.map (fun e => e.1) ++ [p] := by
  unfold dictSet
  by_cases hin : pool.any (fun e => e.1 == p)
  · rw [if_pos hin]
    left
    rw [List.map_map]
    apply List.map_congr_left
    intro e _
    by_cases hk : e.1 == p
    · simp only [Function.comp_apply, if_pos hk]
      exact (eq_of_beq hk).symm
    · simp only [Function.comp_apply, if_neg hk]
  · rw [if_neg hin]
    right
    simp

lemma mem_keys_dictSet_self {pool : List (Proxy × Nat × Bool)} {p : Proxy}
    {v : Nat × Bool} {x : Proxy} :
    x ∈ pool.map (fun e => e.1) → x ∈ (dictSet pool p v).map (fun e => e.1) := by
  intro h
  rcases @keys_dictSet_of_mem pool p v with he | he
  · rwa [he]
  · rw [he]; exact List.mem_append_left _ h

lemma dictSet_key_entries {pool : List (Proxy × Nat × Bool)} {p : Proxy}
    {v : Nat × Bool} {u : Nat} {b : Bool} :
    pool.any (fun e => e.1 == p) →
    (p, u, b) ∈ dictSet pool p v → (u, b) = v := by
  intro hin h
  unfold dictSet at h
  rw [if_pos hin] at h
  obtain ⟨e₀, he₀, himg⟩ := List.mem_map.mp h
  by_cases hk : e₀.1 == p
  · rw [if_pos hk] at himg
    exact (congrArg Prod.snd himg).symm
  · rw [if_neg hk] at himg
    exact absurd (by rw [himg]; simp) hk

lemma not_mem_keys_remove {st : PoolState} {p : Proxy} :
    p ∉ poolKeys (remove_proxy_from_pool st p) := by
  intro h
  obtain ⟨u, b, hmem⟩ := mem_poolKeys.mp h
  unfold remove_proxy_from_pool at hmem
  have := List.of_mem_filter hmem
  simp at this

lemma mem_remove_of_mem {st : PoolState} {p q : Proxy} {u : Nat} {b : Bool} :
    (q, u, b) ∈ (remove_proxy_from_pool st p).pool → (q, u, b) ∈ st.pool := by
  intro h
  exact List.mem_of_mem_filter h

lemma mem_keys_remove_other {st : PoolState} {p q : Proxy} :
    q ∈ poolKeys st → q ≠ p → q ∈ poolKeys (remove_proxy_from_pool st p) := by
  intro h hne
  obtain ⟨u, b, hmem⟩ := mem_poolKeys.mp h
  apply mem_poolKeys.mpr
  refine ⟨u, b, ?_⟩
  unfold remove_proxy_from_pool
  exact List.mem_filter.mpr ⟨hmem, by simpa using hne⟩

/-! ## Supporting lemmas: the acquire/reload recursion -/

lemma scanPool_inv {cfg : ProxyCfg} {pool pool' : List (Proxy × Nat × Bool)}
    {q : Proxy} (hinv : ∀ e ∈ pool, e.2.1 ≤ cfg.usage_limit)
    (h : scanPool cfg.usage_limit pool = some (q, pool')) :
    ∀ e ∈ pool', e.2.1 ≤ cfg.usage_limit := by
  intro e he
  rcases scanPool_shape h e he with h1 | ⟨u, he', hu⟩
  · exact hinv e h1
  · rw [he']; exact hu

lemma get_available_proxyAux_inv {cfg : ProxyCfg} :
    ∀ (fuel : Nat) (st : PoolState), PoolInv cfg st →
      PoolInv cfg (get_available_proxyAux cfg fuel st).2.1 := by
  intro fuel
  induction fuel with
  | zero => intro st h; exact h
  | succ fuel ih =>
    intro st h
    rw [get_available_proxyAux]
    cases hsc : scanPool cfg.usage_limit st.pool with
    | some r =>
      obtain ⟨q, pool'⟩ := r
      exact scanPool_inv h hsc
    | none =>
      by_cases hfr : (newEntries cfg st).isEmpty
      · simp only [hfr, if_true]
        exact h
      · simp only [hfr, if_false]
        apply ih
        intro e he
        rcases List.mem_append.mp he with h1 | h2
        · exact h e h1
        · obtain ⟨q, -, himg⟩ := List.mem_map.mp h2
          rw [← himg]
          exact Nat.zero_le _

lemma reload_proxy_pool_inv {cfg : ProxyCfg} {fuel : Nat} {st : PoolState}
    (h : PoolInv cfg st) : PoolInv cfg (reload_proxy_pool cfg fuel st).2.1 := by
  rw [reload_proxy_pool]
  by_cases hfr : (newEntries cfg st).isEmpty
  · simp only [hfr, if_true]
    exact h
  · simp only [hfr, if_false]
    apply get_available_proxyAux_inv
    intro e he
    rcases List.mem_append.mp he with h1 | h2
    · exact h e h1
    · obtain ⟨q, -, himg⟩ := List.mem_map.mp h2
      rw [← himg]
      exact Nat.zero_le _

lemma increment_proxy_usage_inv {cfg : ProxyCfg} {st : PoolState} {p : Proxy}
    (h : PoolInv cfg st) : PoolInv cfg (increment_proxy_usage cfg st p).1 := by
  rw [increment_proxy_usage]
  cases hl : lookupProxy st p with
  | none => exact h
  | some v =>
    obtain ⟨u, b⟩ := v
    by_cases hu : u < cfg.usage_limit
    · simp only [hu, if_true]
      intro e he
      rcases mem_dictSet he with h1 | h2
      · exact h e h1
      · rw [h2]; exact hu
    · simp only [hu, if_false]
      intro e he
      exact h e (mem_remove_of_mem he)

lemma release_proxy_inv {cfg : ProxyCfg} {st : PoolState} {p : Proxy}
    (h : PoolInv cfg st) : PoolInv cfg (release_proxy cfg st p) := by
  rw [release_proxy]
  cases hl : lookupProxy st p with
  | none => exact h
  | some v =>
    obtain ⟨u, b⟩ := v
    by_cases hu : u < cfg.usage_limit
    · simp only [hu, if_true]
      intro e he
      rcases mem_dictSet he with h1 | h2
      · exact h e h1
      · rw [h2]; exact Nat.le_of_lt hu
    · simp only [hu, if_false]
      intro e he
      exact h e (mem_remove_of_mem he)

lemma applyPoolOp_inv {cfg : ProxyCfg} {st : PoolState} {op : PoolOp}
    (h : PoolInv cfg st) : PoolInv cfg (applyPoolOp cfg st op) := by
  cases op with
  | acquire fuel => exact get_available_proxyAux_inv fuel st h
  | reload fuel => exact reload_proxy_pool_inv h
  | increment p => exact increment_proxy_usage_inv h
  | release p => exact release_proxy_inv h
  | remove p => exact fun e he => h e (mem_remove_of_mem he)

lemma exhausted_scan_result {cfg : ProxyCfg} {st : PoolState} {p q : Proxy}
    {pool' : List (Proxy × Nat × Bool)}
    (hex : ExhaustedIn cfg st p)
    (h : scanPool cfg.usage_limit st.pool = some (q, pool')) : q ≠ p := by
  obtain ⟨u, hmem, hu⟩ := scanPool_mem_of_some h
  intro hqp
  rw [hqp] at hmem
  exact absurd (hex u false hmem) (Nat.not_le_of_lt hu)

lemma exhausted_scan_post {cfg : ProxyCfg} {st : PoolState} {p q : Proxy}
    {pool' : List (Proxy × Nat × Bool)}
    (hex : ExhaustedIn cfg st p)
    (h : scanPool cfg.usage_limit st.pool = some (q, pool')) :
    ExhaustedIn cfg ⟨pool'⟩ p := by
  intro u b hmem
  rcases scanPool_shape h (p, u, b) hmem with h1 | ⟨u', he', -⟩
  · exact hex u b h1
  · exact absurd (congrArg Prod.fst he') (exhausted_scan_result hex h).symm

lemma exhausted_insert_fresh {cfg : ProxyCfg} {st : PoolState} {p : Proxy}
    (qs : List Proxy)
    (hex : ExhaustedIn cfg st p) (hmem : p ∈ poolKeys st)
    (hfresh : ∀ q ∈ qs, q ∈ newEntries cfg st) :
    ExhaustedIn cfg ⟨st.pool ++ qs.map (fun q => (q, 0, false))⟩ p := by
  intro u b hm
  rcases List.mem_append.mp hm with h1 | h2
  · exact hex u b h1
  · obtain ⟨q, hq, himg⟩ := List.mem_map.mp h2
    have hqp : q = p := congrArg Prod.fst himg
    have := hfresh q hq
    unfold newEntries at this
    have hnot := List.of_mem_filter this
    rw [hqp] at hnot
    simp [poolKeys] at hnot
    exact absurd hmem (by simpa [poolKeys] using hnot)

lemma exhausted_acquireAux {cfg : ProxyCfg} {p : Proxy} :
    ∀ (fuel : Nat) (st : PoolState),
      ExhaustedIn cfg st p → p ∈ poolKeys st →
      (get_available_proxyAux cfg fuel st).1 ≠ .ok p ∧
      ExhaustedIn cfg (get_available_proxyAux cfg fuel st).2.1 p ∧
      p ∈ poolKeys (get_available_proxyAux cfg fuel st).2.1 := by
  intro fuel
  induction fuel with
  | zero =>
    intro st hex hmem
    exact ⟨by simp [get_available_proxyAux], hex, hmem⟩
  | succ fuel ih =>
    intro st hex hmem
    rw [get_available_proxyAux]
    cases hsc : scanPool cfg.usage_limit st.pool with
    | some r =>
      obtain ⟨q, pool'⟩ := r
      refine ⟨?_, exhausted_scan_post hex hsc, ?_⟩
      · intro hok
        exact absurd (AcqResult.ok.injEq .. ▸ hok) (exhausted_scan_result hex hsc)
      · have hk := scanPool_keys hsc
        simpa [poolKeys, hk] using hmem
    | none =>
      by_cases hfr : (newEntries cfg st).isEmpty
      · simp only [hfr, if_true]
        exact ⟨by simp, hex, hmem⟩
      · simp only [hfr, if_false]
        set survivors := if cfg.validation then
            (newEntries cfg st).filter cfg.validFn else newEntries cfg st with hsurv
        have hsub : ∀ q ∈ survivors, q ∈ newEntries cfg st := by
          intro q hq
          rw [hsurv] at hq
          by_cases hv : cfg.validation
          · simp only [hv, if_true] at hq
            exact List.mem_of_mem_filter hq
          · simpa [hv] using hq
        have hex' := exhausted_insert_fresh survivors hex hmem hsub
        have hmem' : p ∈ poolKeys
            (⟨st.pool ++ survivors.map (fun q => (q, 0, false))⟩ : PoolState) := by
          simp only [poolKeys, List.map_append]
          exact List.mem_append_left _ hmem
        obtain ⟨h1, h2, h3⟩ := ih _ hex' hmem'
        exact ⟨h1, h2, h3⟩

lemma exhausted_reload {cfg : ProxyCfg} {p : Proxy} {fuel : Nat} {st : PoolState}
    (hex : ExhaustedIn cfg st p) (hmem : p ∈ poolKeys st) :
    (reload_proxy_pool cfg fuel st).1 ≠ .ok p ∧
    ExhaustedIn cfg (reload_proxy_pool cfg fuel st).2.1 p ∧
    p ∈ poolKeys (reload_proxy_pool cfg fuel st).2.1 := by
  rw [reload_proxy_pool]
  by_cases hfr : (newEntries cfg st).isEmpty
  · simp only [hfr, if_true]
    exact ⟨by simp, hex, hmem⟩
  · simp only [hfr, if_false]
    set survivors := if cfg.validation then
        (newEntries cfg st).filter cfg.validFn else newEntries cfg st with hsurv
    have hsub : ∀ q ∈ survivors, q ∈ newEntries cfg st := by
      intro q hq
      rw [hsurv] at hq
      by_cases hv : cfg.validation
      · simp only [hv, if_true] at hq
        exact List.mem_of_mem_filter hq
      · simpa [hv] using hq
    have hex' := exhausted_insert_fresh survivors hex hmem hsub
    have hmem' : p ∈ poolKeys
        (⟨st.pool ++ survivors.map (fun q => (q, 0, false))⟩ : PoolState) := by
      simp only [poolKeys, List.map_append]
      exact List.mem_append_left _ hmem
    obtain ⟨h1, h2, h3⟩ := exhausted_acquireAux fuel _ hex' hmem'
    exact ⟨h1, h2, h3⟩

lemma exhausted_applyPoolOp {cfg : ProxyCfg} {p : Proxy} {st : PoolState}
    {op : PoolOp}
    (hex : ExhaustedIn cfg st p) (hmem : p ∈ poolKeys st)
    (hkeep : p ∈ poolKeys (applyPoolOp cfg st op)) :
    ExhaustedIn cfg (applyPoolOp cfg st op) p := by
  cases op with
  | acquire fuel => exact (exhausted_acquireAux fuel st hex hmem).2.1
  | reload fuel => exact (exhausted_reload hex hmem).2.1
  | increment q =>
    show ExhaustedIn cfg (increment_proxy_usage cfg st q).1 p
    rw [increment_proxy_usage]
    cases hl : lookupProxy st q with
    | none => exact hex
    | some v =>
      obtain ⟨u, b⟩ := v
      dsimp only
      by_cases hqp : q = p
      · subst hqp
        obtain ⟨u', b', hl', hmem'⟩ := lookup_some_of_mem_keys hmem
        rw [hl'] at hl
        obtain ⟨hu, -⟩ := Prod.mk.injEq .. ▸ Option.some.injEq .. ▸ hl
        have hge : cfg.usage_limit ≤ u := hu ▸ hex u' b' hmem'
        rw [if_neg (Nat.not_lt_of_le hge)]
        intro u₀ b₀ hm₀
        exact absurd (mem_poolKeys.mpr ⟨u₀, b₀, hm₀⟩) not_mem_keys_remove
      · by_cases hu : u < cfg.usage_limit
        · rw [if_pos hu]
          intro u₀ b₀ hm₀
          exact hex u₀ b₀ (mem_dictSet_other hm₀ (Ne.symm hqp))
        · rw [if_neg hu]
          intro u₀ b₀ hm₀
          exact hex u₀ b₀ (mem_remove_of_mem hm₀)
  | release q =>
    show ExhaustedIn cfg (release_proxy cfg st q) p
    rw [release_proxy]
    cases hl : lookupProxy st q with
    | none => exact hex
    | some v =>
      obtain ⟨u, b⟩ := v
      dsimp only
      by_cases hu : u < cfg.usage_limit
      · rw [if_pos hu]
        intro u₀ b₀ hm₀
        by_cases hqp : q = p
        · subst hqp
          obtain ⟨u', b', hl', hmem'⟩ := lookup_some_of_mem_keys hmem
          rw [hl'] at hl
          obtain ⟨huu, -⟩ := Prod.mk.injEq .. ▸ Option.some.injEq .. ▸ hl
          have hge : cfg.usage_limit ≤ u := huu ▸ hex u' b' hmem'
          exact absurd hu (Nat.not_lt_of_le hge)
        · exact hex u₀ b₀ (mem_dictSet_other hm₀ (Ne.symm hqp))
      · rw [if_neg hu]
        intro u₀ b₀ hm₀
        exact hex u₀ b₀ (mem_remove_of_mem hm₀)
  | remove q =>
    intro u₀ b₀ hm₀
    exact hex u₀ b₀ (mem_remove_of_mem hm₀)

lemma exhausted_applyPoolOps {cfg : ProxyCfg} {p : Proxy} :
    ∀ (ops : List PoolOp) (st : PoolState),
      ExhaustedIn cfg st p → p ∈ poolKeys st →
      (∀ n, p ∈ poolKeys (applyPoolOps cfg st (ops.take n))) →
      ExhaustedIn cfg (applyPoolOps cfg st ops) p ∧
      p ∈ poolKeys (applyPoolOps cfg st ops) := by
  intro ops
  induction ops with
  | nil => intro st hex hmem _; exact ⟨hex, hmem⟩
  | cons op rest ih =>
    intro st hex hmem htake
    have hone : p ∈ poolKeys (applyPoolOp cfg st op) := by
      have := htake 1
      simpa [applyPoolOps] using this
    have hex₁ : ExhaustedIn cfg (applyPoolOp cfg st op) p :=
      exhausted_applyPoolOp hex hmem hone
    have htake' : ∀ n, p ∈ poolKeys
        (applyPoolOps cfg (applyPoolOp cfg st op) (rest.take n)) := by
      intro n
      have := htake (n + 1)
      simpa [applyPoolOps, List.take_succ_cons] using this
    have := ih (applyPoolOp cfg st op) hex₁ hone htake'
    simpa [applyPoolOps] using this

lemma mem_keys_of_lookup_some {st : PoolState} {p : Proxy} {v : Nat × Bool} :
    lookupProxy st p = some v → p ∈ poolKeys st := by
  unfold lookupProxy
  intro h
  obtain ⟨e, he, -⟩ := Option.map_eq_some'.mp h
  have hkey : e.1 = p := by simpa using List.find?_some he
  have hm := List.mem_of_find?_eq_some he
  exact mem_poolKeys.mpr ⟨e.2.1, e.2.2,
    by rwa [show (p, e.2.1, e.2.2) = e from by rw [← hkey]]⟩

lemma any_keys_of_mem {pool : List (Proxy × Nat × Bool)} {p : Proxy} :
    p ∈ pool.map (fun e => e.1) → pool.any (fun e => e.1 == p) = true := by
  intro h
  rw [List.any_eq_true]
  obtain ⟨e, he, hk⟩ := List.mem_map.mp h
  exact ⟨e, he, by simp [hk]⟩

lemma lookup_dictSet_self :
    ∀ {pool : List (Proxy × Nat × Bool)} {p : Proxy} {v : Nat × Bool},
      p ∈ pool.map (fun e => e.1) →
      lookupProxy ⟨dictSet pool p v⟩ p = some v := by
  intro pool
  induction pool with
  | nil => intro p v h; simp at h
  | cons e₀ rest ih =>
    intro p v h
    have hany := any_keys_of_mem h
    unfold lookupProxy dictSet
    rw [if_pos hany]
    by_cases h₀ : e₀.1 == p
    · simp only [List.map_cons, if_pos h₀, List.find?_cons]
      have : ((p, v).1 == p) = true := by simp
      rw [this]
      rfl
    · simp only [List.map_cons, if_neg h₀, List.find?_cons]
      rw [show (e₀.1 == p) = false from by simpa using h₀]
      have hrest : p ∈ rest.map (fun e => e.1) := by
        rw [List.map_cons] at h
        rcases List.mem_cons.mp h with h1 | h2
        · exact absurd (by simp [h1] : (e₀.1 == p) = true) (by simpa using h₀)
        · exact h2
      have := ih (v := v) hrest
      unfold lookupProxy dictSet at this
      rwa [if_pos (any_keys_of_mem hrest)] at this

/-- C2 (corrected claim, counterexample): with `usage_limit = 2` and a proxy
`"a"` at use count 1 (= `usage_limit - 1`), `increment_proxy_usage` raises
nothing and leaves `"a"` in the pool at `(2, True)` — it does NOT evict the
proxy, contrary to the claim's "calling increment on p … evicts p from the
pool". -/
theorem increment_no_eviction_counterexample :
    increment_proxy_usage ⟨2, false, [], fun _ => true⟩ ⟨[("a", 1, false)]⟩ "a" =
      (⟨[("a", 2, true)]⟩, false) ∧
    "a" ∈ poolKeys
      (increment_proxy_usage ⟨2, false, [], fun _ => true⟩ ⟨[("a", 1, false)]⟩ "a").1 := by
  exact ⟨by decide, by decide⟩

/-- C2 (amended): incrementing a proxy whose use count is `usage_limit - 1`
does not evict it: it raises no `UsageError` and sets the entry to
`(usage_limit, True)`, so the proxy stays in the pool; and as long as the
proxy remains in the pool under any further sequence of pool operations, no
`acquire` ever returns it (the scan requires `use_count < usage_limit`, and a
reload never re-inserts a key still present).  (Once a later `increment` or
`release` evicts it, a reload may re-insert it if it is still listed in the
source file.) -/
theorem increment_at_limit_spec :
    ∀ (cfg : ProxyCfg) (st : PoolState) (p : Proxy) (u : Nat) (b : Bool),
      lookupProxy st p = some (u, b) → u + 1 = cfg.usage_limit →
      ((increment_proxy_usage cfg st p).2 = false ∧
       lookupProxy (increment_proxy_usage cfg st p).1 p =
         some (cfg.usage_limit, true) ∧
       p ∈ poolKeys (increment_proxy_usage cfg st p).1) ∧
      (∀ ops : List PoolOp,
        (∀ n, p ∈ poolKeys
            (applyPoolOps cfg (increment_proxy_usage cfg st p).1 (ops.take n))) →
        ∀ fuel,
          (get_available_proxyAux cfg fuel
            (applyPoolOps cfg (increment_proxy_usage cfg st p).1 ops)).1 ≠
              .ok p) := by
  intro cfg st p u b hl hu1
  have hu : u < cfg.usage_limit := by omega
  have hkeys : p ∈ poolKeys st := mem_keys_of_lookup_some hl
  have hst : increment_proxy_usage cfg st p =
      (⟨dictSet st.pool p (u + 1, true)⟩, false) := by
    rw [increment_proxy_usage, hl]
    dsimp only
    rw [if_pos hu]
  have hlook : lookupProxy (increment_proxy_usage cfg st p).1 p =
      some (cfg.usage_limit, true) := by
    rw [hst]
    rw [lookup_dictSet_self (by simpa [poolKeys] using hkeys)]
    rw [hu1]
  have hmem₁ : p ∈ poolKeys (increment_proxy_usage cfg st p).1 :=
    mem_keys_of_lookup_some hlook
  have hex₁ : ExhaustedIn cfg (increment_proxy_usage cfg st p).1 p := by
    intro u₀ b₀ hm₀
    rw [hst] at hm₀
    have hany : st.pool.any (fun e => e.1 == p) = true :=
      any_keys_of_mem (by simpa [poolKeys] using hkeys)
    have := dictSet_key_entries hany hm₀
    have hu₀ : u₀ = u + 1 := congrArg Prod.fst this
    omega
  refine ⟨⟨by rw [hst], hlook, hmem₁⟩, ?_⟩
  intro ops htake fuel
  obtain ⟨hex₂, hmem₂⟩ := exhausted_applyPoolOps ops _ hex₁ hmem₁ htake
  exact (exhausted_acquireAux fuel _ hex₂ hmem₂).1

/-- Witness for `increment_at_limit_spec` at `usage_limit = 2`,
pool `{"a": (1, False)}`. -/
theorem increment_at_limit_spec_witness :
    lookupProxy
      (increment_proxy_usage ⟨2, false, [], fun _ => true⟩ ⟨[("a", 1, false)]⟩ "a").1
      "a" = some (2, true) ∧
    (get_available_proxyAux ⟨2, false, [], fun _ => true⟩ 3
      (applyPoolOps ⟨2, false, [], fun _ => true⟩
        (increment_proxy_usage ⟨2, false, [], fun _ => true⟩ ⟨[("a", 1, false)]⟩ "a").1
        [])).1 ≠ .ok "a" := by
  have h := increment_at_limit_spec ⟨2, false, [], fun _ => true⟩
    ⟨[("a", 1, false)]⟩ "a" 1 false (by decide) (by decide)
  exact ⟨h.1.2.1, h.2 [] (fun n => by simpa [applyPoolOps] using h.1.2.2) 3⟩

/-- C8: every use count stays between `0` and `usage_limit` across any
sequence of pool operations (counts are naturals, so the lower bound is
inherent; no operation writes a count above the limit). -/
theorem pool_usage_invariant :
    ∀ (cfg : ProxyCfg) (st : PoolState) (ops : List PoolOp),
      PoolInv cfg st → PoolInv cfg (applyPoolOps cfg st ops) := by
  intro cfg st ops
  induction ops generalizing st with
  | nil => intro h; exact h
  | cons op rest ih =>
    intro h
    have h₁ := @applyPoolOp_inv cfg st op h
    simpa [applyPoolOps] using ih _ h₁

/-- Witness for `pool_usage_invariant` on a concrete pool and operation
sequence. -/
theorem pool_usage_invariant_witness :
    PoolInv ⟨2, false, ["b"], fun _ => true⟩
      (applyPoolOps ⟨2, false, ["b"], fun _ => true⟩ ⟨[("a", 0, false)]⟩
        [.acquire 2, .increment "a", .release "a", .reload 2, .remove "b"]) :=
  pool_usage_invariant _ _ _ (by unfold PoolInv; decide)

lemma scanPool_append_some {limit : Nat} :
    ∀ {a a' b : List (Proxy × Nat × Bool)} {r : Proxy},
      scanPool limit a = some (r, a') →
      scanPool limit (a ++ b) = some (r, a' ++ b) := by
  intro a
  induction a with
  | nil => intro a' b r h; simp [scanPool] at h
  | cons e₀ rest ih =>
    intro a' b r h
    obtain ⟨p, u, bb⟩ := e₀
    rw [scanPool_cons] at h
    by_cases hc : u < limit ∧ bb = false
    · rw [if_pos hc] at h
      injection h with h'
      have hr : p = r := congrArg Prod.fst h'
      have ha : (p, u + 1, true) :: rest = a' := congrArg Prod.snd h'
      rw [List.cons_append, scanPool_cons, if_pos hc, ← hr, ← ha]
      rfl
    · rw [if_neg hc] at h
      obtain ⟨⟨r₀, hr₀⟩, hscan, hfr⟩ := Option.map_eq_some'.mp h
      have hrr : r₀ = r := congrArg Prod.fst hfr
      have ha : (p, u, bb) :: hr₀ = a' := congrArg Prod.snd hfr
      rw [List.cons_append, scanPool_cons, if_neg hc, ih (hrr ▸ hscan)]
      rw [← ha]
      rfl

lemma acquireAux_after_insert {cfg : ProxyCfg} {st : PoolState} {fuel : Nat}
    {q : Proxy} {tail : List (Proxy × Nat × Bool)}
    (hscan : scanPool cfg.usage_limit st.pool = none)
    (hlim : 0 < cfg.usage_limit) :
    get_available_proxyAux cfg (fuel + 1)
        ⟨st.pool ++ (q, 0, false) :: tail⟩ =
      (.ok q, ⟨st.pool ++ (q, 1, true) :: tail⟩, 0) := by
  rw [get_available_proxyAux]
  have h1 : scanPool cfg.usage_limit (st.pool ++ (q, 0, false) :: tail) =
      some (q, st.pool ++ (q, 1, true) :: tail) := by
    rw [scanPool_append_none hscan, scanPool_cons, if_pos ⟨hlim, rfl⟩]
    rfl
  rw [h1]

/-- C4 (corrected claim, counterexample): with the pool exhausted
(`{"a": (1, True)}`, `usage_limit = 1`) and the source file containing no
fresh entry, `get_available_proxy` fails by propagating `ProxyReloadError` —
the same exception the claim attributes to `reload` alone.  The code defines
no `ProxyExhausted` exception (`utils/exceptions.py` has only `UsageError`
and `ProxyReloadError`), so acquire's failure is not a distinct error as the
claim states. -/
theorem acquire_error_name_counterexample :
    get_available_proxyAux ⟨1, false, ["a"], fun _ => true⟩ 5 ⟨[("a", 1, true)]⟩ =
      (.reloadError, ⟨[("a", 1, true)]⟩, 0) := by
  decide

/-- C4 (amended): `get_available_proxy` scans the pool in insertion order and
transitions the first entry with `use_count < usage_limit` and
`in_use = false` to `(use_count + 1, True)`; when no candidate exists it
reloads: with no fresh file entries it propagates `ProxyReloadError` (there
is no separate `ProxyExhausted`), and otherwise (validation off, positive
limit) it retries exactly once and returns a fresh proxy; `reload` fails with
`ProxyReloadError` exactly when the file entries minus the known pool keys
are empty. -/
theorem get_available_proxy_spec :
    ∀ (cfg : ProxyCfg) (st : PoolState) (fuel : Nat),
      (∀ (pre post : List (Proxy × Nat × Bool)) (p : Proxy) (u : Nat),
        st.pool = pre ++ (p, u, false) :: post →
        (∀ e ∈ pre, ¬(e.2.1 < cfg.usage_limit ∧ e.2.2 = false)) →
        u < cfg.usage_limit →
        get_available_proxyAux cfg (fuel + 1) st =
          (.ok p, ⟨pre ++ (p, u + 1, true) :: post⟩, 0)) ∧
      ((∀ e ∈ st.pool, ¬(e.2.1 < cfg.usage_limit ∧ e.2.2 = false)) →
        newEntries cfg st = [] →
        get_available_proxyAux cfg (fuel + 1) st = (.reloadError, st, 0)) ∧
      ((∀ e ∈ st.pool, ¬(e.2.1 < cfg.usage_limit ∧ e.2.2 = false)) →
        newEntries cfg st ≠ [] →
        cfg.validation = false → 0 < cfg.usage_limit →
        ∃ q st', q ∈ newEntries cfg st ∧
          get_available_proxyAux cfg (fuel + 1 + 1) st = (.ok q, st', 1)) ∧
      (cfg.validation = false → 0 < cfg.usage_limit →
        ((reload_proxy_pool cfg (fuel + 1) st).1 = .reloadError ↔
          newEntries cfg st = [])) := by
  intro cfg st fuel
  refine ⟨?_, ?_, ?_, ?_⟩
  · intro pre post p u hpool hpre hu
    rw [get_available_proxyAux, hpool, scanPool_first hpre hu]
  · intro hnc hne
    rw [get_available_proxyAux, scanPool_none_iff.mpr hnc]
    have hempty : (newEntries cfg st).isEmpty = true := by rw [hne]; rfl
    simp only [hempty, if_true]
  · intro hnc hne hval hlim
    have hscan : scanPool cfg.usage_limit st.pool = none := scanPool_none_iff.mpr hnc
    obtain ⟨q, rest', hfresh⟩ := List.exists_cons_of_ne_nil hne
    refine ⟨q, ⟨st.pool ++ (q, 1, true) :: rest'.map (fun x => (x, 0, false))⟩,
      by rw [hfresh]; exact List.mem_cons_self _ _, ?_⟩
    rw [get_available_proxyAux, hscan]
    have hempty : (newEntries cfg st).isEmpty = false := by
      rw [hfresh]; rfl
    simp only [hempty, if_false, hval, Bool.false_eq_true, hfresh]
    rw [List.map_cons]
    rw [acquireAux_after_insert hscan hlim]
    simp
  · intro hval hlim
    constructor
    · intro h
      by_contra hne
      obtain ⟨q, rest', hfresh⟩ := List.exists_cons_of_ne_nil hne
      rw [reload_proxy_pool] at h
      have hempty : (newEntries cfg st).isEmpty = false := by
        rw [hfresh]; rfl
      simp only [hempty, if_false, hval, Bool.false_eq_true, hfresh] at h
      rw [List.map_cons] at h
      cases hsc : scanPool cfg.usage_limit st.pool with
      | none =>
        rw [acquireAux_after_insert hsc hlim] at h
        exact absurd h (by simp)
      | some r =>
        obtain ⟨r₀, pool'⟩ := r
        rw [get_available_proxyAux,
          scanPool_append_some (b := (q, 0, false) :: rest'.map (fun x => (x, 0, false))) hsc] at h
        exact absurd h (by simp)
    · intro h
      rw [reload_proxy_pool]
      have hempty : (newEntries cfg st).isEmpty = true := by rw [h]; rfl
      simp only [hempty, if_true]

/-- Witness for `get_available_proxy_spec`: the scan conjunct on the pool
`{"a": (1, True), "b": (0, False)}` with limit 2, and the reload-error
conjunct on an exhausted pool with no fresh file entries. -/
theorem get_available_proxy_spec_witness :
    get_available_proxyAux ⟨2, false, [], fun _ => true⟩ 1
        ⟨[("a", 1, true), ("b", 0, false)]⟩ =
      (.ok "b", ⟨[("a", 1, true), ("b", 1, true)]⟩, 0) ∧
    get_available_proxyAux ⟨1, false, ["a"], fun _ => true⟩ 1 ⟨[("a", 1, true)]⟩ =
      (.reloadError, ⟨[("a", 1, true)]⟩, 0) := by
  constructor
  · exact (get_available_proxy_spec ⟨2, false, [], fun _ => true⟩
      ⟨[("a", 1, true), ("b", 0, false)]⟩ 0).1 [("a", 1, true)] [] "b" 0
      rfl (by decide) (by decide)
  · exact (get_available_proxy_spec ⟨1, false, ["a"], fun _ => true⟩
      ⟨[("a", 1, true)]⟩ 0).2.1 (by decide) (by decide)

lemma make_requestAux_state_unchanged {cfg : ProxyCfg} {nav : Nat → NavOutcome}
    {p : Proxy} (hns : ∀ i, nav i ≠ .success) :
    ∀ (fuel attempt : Nat) (st : PoolState),
      (make_requestAux cfg nav p fuel attempt st).2.1 = st := by
  intro fuel
  induction fuel with
  | zero => intro attempt st; rfl
  | succ fuel ih =>
    intro attempt st
    rw [make_requestAux]
    cases hnav : nav attempt with
    | success => exact absurd hnav (hns attempt)
    | failure => rfl
    | timeout =>
      by_cases hlt : attempt < max_retries
      · simp only [if_pos hlt]
        exact ih (attempt + 1) st
      · simp only [if_neg hlt]

/-- C5: `make_request` navigates and increments the proxy use count only on a
successful navigation; three all-timeout attempts sleep 2 s then 4 s and end
in the final `TimeoutException`; a `UsageError` from the increment is
re-raised immediately with no retry; any other exception propagates at once;
and without a successful navigation the pool state is untouched. -/
theorem make_request_spec :
    ∀ (cfg : ProxyCfg) (nav : Nat → NavOutcome) (p : Proxy) (st : PoolState),
      ((∀ i, i ≤ max_retries → nav i = .timeout) →
        make_request cfg nav p st = (some .timeoutError, st, [2, 4])) ∧
      (nav 0 = .success →
        make_request cfg nav p st =
          (if (increment_proxy_usage cfg st p).2 then some FetchErr.usageError
           else none,
           (increment_proxy_usage cfg st p).1, [])) ∧
      (nav 0 = .failure → make_request cfg nav p st = (some .otherError, st, [])) ∧
      ((∀ i, nav i ≠ .success) → (make_request cfg nav p st).2.1 = st) := by
  intro cfg nav p st
  refine ⟨?_, ?_, ?_, ?_⟩
  · intro h
    have h0 := h 0 (by decide)
    have h1 := h 1 (by decide)
    have h2 := h 2 (by decide)
    simp [make_request, make_requestAux, h0, h1, h2, max_retries]
  · intro h
    rw [make_request, make_requestAux, h]
    cases hinc : (increment_proxy_usage cfg st p).2 <;> simp [hinc]
  · intro h
    rw [make_request, make_requestAux, h]
  · intro h
    exact make_requestAux_state_unchanged h _ _ _

/-- Witness for `make_request_spec`: every attempt times out. -/
theorem make_request_spec_witness :
    make_request ⟨5, false, [], fun _ => true⟩ (fun _ => .timeout) "a" ⟨[]⟩ =
      (some .timeoutError, ⟨[]⟩, [2, 4]) :=
  (make_request_spec ⟨5, false, [], fun _ => true⟩ (fun _ => .timeout) "a" ⟨[]⟩).1
    (fun _ _ => rfl)

/-- C6: on a `UsageError` from `make_request` with the per-link counter below
the limit (3), `get_target_link` rotates the proxy, re-runs startup (one
counted cycle) and retries the URL with the counter incremented; at the limit
it re-raises `UsageError`; any other exception is logged and the URL skipped
without raising; with every attempt exhausting the proxy, the call raises
`UsageError` after exactly `retry_limit` rotate-and-startup cycles. -/
theorem get_target_link_spec :
    ∀ (req : Nat → ReqOutcome) (rc : Nat),
      (req rc = .usage → rc < retry_limit →
        get_target_link req rc =
          ((get_target_link req (rc + 1)).1, (get_target_link req (rc + 1)).2 + 1)) ∧
      (req rc = .usage → ¬ rc < retry_limit →
        get_target_link req rc = (.raisedUsage, 0)) ∧
      (req rc = .other → rc ≤ retry_limit →
        get_target_link req rc = (.skipped, 0)) ∧
      (req rc = .ok → rc ≤ retry_limit →
        get_target_link req rc = (.completed, 0)) ∧
      ((∀ k, req k = .usage) → get_target_link req 0 = (.raisedUsage, retry_limit)) := by
  intro req rc
  refine ⟨?_, ?_, ?_, ?_, ?_⟩
  · intro h hlt
    have harith : retry_limit + 1 - rc = (retry_limit - rc) + 1 := by
      unfold retry_limit at hlt ⊢; omega
    have harith2 : retry_limit + 1 - (rc + 1) = retry_limit - rc := by omega
    rw [get_target_link, harith, get_target_linkAux, h]
    simp only [if_pos hlt]
    rw [get_target_link, harith2]
  · intro h hge
    by_cases h0 : retry_limit + 1 - rc = 0
    · rw [get_target_link, h0, get_target_linkAux]
    · obtain ⟨m, hm⟩ := Nat.exists_eq_succ_of_ne_zero h0
      rw [get_target_link, hm, get_target_linkAux, h]
      simp only [if_neg hge]
  · intro h hle
    have harith : retry_limit + 1 - rc = (retry_limit - rc) + 1 := by
      unfold retry_limit at hle ⊢; omega
    rw [get_target_link, harith, get_target_linkAux, h]
  · intro h hle
    have harith : retry_limit + 1 - rc = (retry_limit - rc) + 1 := by
      unfold retry_limit at hle ⊢; omega
    rw [get_target_link, harith, get_target_linkAux, h]
  · intro h
    simp [get_target_link, retry_limit, get_target_linkAux, h]

/-- Witness for `get_target_link_spec`: every attempt raises `UsageError`. -/
theorem get_target_link_spec_witness :
    get_target_link (fun _ => .usage) 0 = (.raisedUsage, retry_limit) :=
  (get_target_link_spec (fun _ => .usage) 0).2.2.2.2 (fun _ => rfl)

/-- C7 (corrected claim, counterexample): proxy acquisition succeeds but the
container creation fails; `connect_container` swallows the failure, so
`connect_resources` still returns `True` while the connection's container
field is unset — refuting "whenever connect_resources returns true, all four
resource fields are set". -/
theorem connect_resources_counterexample :
    (connect_resources ⟨5, false, [], fun _ => true⟩ 2 ⟨[("px", 0, false)]⟩
        ⟨"t1", 9001, none, none, none⟩ none (some ())).1 = true ∧
    (connect_resources ⟨5, false, [], fun _ => true⟩ 2 ⟨[("px", 0, false)]⟩
        ⟨"t1", 9001, none, none, none⟩ none (some ())).2.1.container = none := by
  exact ⟨by decide, by decide⟩

/-- C7 (amended): `connect_resources` returns `True` iff the proxy
acquisition raised nothing (name and port are always untouched, and the
acquired proxy is then assigned); the container and driver fields are set
exactly when their creation calls succeed — their failures are caught inside
`connect_container`/`connect_driver` and never clear the flag, so a `True`
return does not guarantee that the container or driver field is set. -/
theorem connect_resources_spec :
    ∀ (cfg : ProxyCfg) (fuel : Nat) (st : PoolState) (c : ConnectionData)
      (cr dr : Option Unit),
      ((connect_resources cfg fuel st c cr dr).1 = true ↔
        ∃ p, (get_available_proxyAux cfg fuel st).1 = .ok p) ∧
      ((connect_resources cfg fuel st c cr dr).2.1.name = c.name ∧
       (connect_resources cfg fuel st c cr dr).2.1.port = c.port) ∧
      (∀ p, (get_available_proxyAux cfg fuel st).1 = .ok p →
        (connect_resources cfg fuel st c cr dr).2.1.proxy = some p) ∧
      ((connect_resources cfg fuel st c cr dr).2.1.container =
        if cr.isSome then cr else c.container) ∧
      ((connect_resources cfg fuel st c cr dr).2.1.driver =
        if dr.isSome then dr else c.driver) := by
  intro cfg fuel st c cr dr
  rcases ha : get_available_proxyAux cfg fuel st with ⟨res, st', k⟩
  cases res with
  | ok p =>
    cases cr <;> cases dr <;>
      simp [connect_resources, ha, connect_container, connect_driver]
  | reloadError =>
    cases cr <;> cases dr <;>
      simp [connect_resources, ha, connect_container, connect_driver]
  | spin =>
    cases cr <;> cases dr <;>
      simp [connect_resources, ha, connect_container, connect_driver]

/-- Witness for `connect_resources_spec` on the counterexample inputs. -/
theorem connect_resources_spec_witness :
    (connect_resources ⟨5, false, [], fun _ => true⟩ 2 ⟨[("px", 0, false)]⟩
        ⟨"t1", 9001, none, none, none⟩ none (some ())).2.1.proxy = some "px" :=
  (connect_resources_spec ⟨5, false, [], fun _ => true⟩ 2 ⟨[("px", 0, false)]⟩
    ⟨"t1", 9001, none, none, none⟩ none (some ())).2.2.1 "px" (by decide)

lemma paginated_extractionGo_spec
    (extract : Nat → List (List (Option String))) (view : Nat → PageView) :
    ∀ (rem idx : Nat),
      (paginated_extractionGo extract view rem idx ((paginate (view idx)).2)).2 ≤ rem ∧
      (0 < rem →
        1 ≤ (paginated_extractionGo extract view rem idx ((paginate (view idx)).2)).2) ∧
      ((paginated_extractionGo extract view rem idx ((paginate (view idx)).2)).2 < rem →
        (paginate (view (idx +
          (paginated_extractionGo extract view rem idx ((paginate (view idx)).2)).2 - 1))).2
            = none) ∧
      (∀ j, j + 1 <
          (paginated_extractionGo extract view rem idx ((paginate (view idx)).2)).2 →
        (paginate (view (idx + j))).2 ≠ none) := by
  intro rem
  induction rem with
  | zero =>
    intro idx
    refine ⟨Nat.le_refl _, ?_, ?_, ?_⟩
    · intro h; exact absurd h (by simp [paginated_extractionGo])
    · intro h; exact absurd h (by simp [paginated_extractionGo])
    · intro j hj; exact absurd hj (by simp [paginated_extractionGo])
  | succ rem ih =>
    intro idx
    cases hnb : (paginate (view idx)).2 with
    | none =>
      rw [show paginated_extractionGo extract view (rem + 1) idx none
          = (extract idx, 1) from rfl]
      refine ⟨by omega, fun _ => Nat.le_refl _, ?_, ?_⟩
      · intro _
        simpa using hnb
      · intro j hj
        exact absurd hj (by omega)
    | some nb =>
      have hgo : paginated_extractionGo extract view (rem + 1) idx (some nb)
          = (extract idx ++
              (paginated_extractionGo extract view rem (idx + 1)
                ((paginate (view (idx + 1))).2)).1,
             (paginated_extractionGo extract view rem (idx + 1)
                ((paginate (view (idx + 1))).2)).2 + 1) := rfl
      obtain ⟨ih1, ih2, ih3, ih4⟩ := ih (idx + 1)
      rw [hgo]
      refine ⟨by simpa using ih1, fun _ => by omega, ?_, ?_⟩
      · intro hlt
        have hlt' : (paginated_extractionGo extract view rem (idx + 1)
            ((paginate (view (idx + 1))).2)).2 < rem := by omega
        have h1 : 1 ≤ (paginated_extractionGo extract view rem (idx + 1)
            ((paginate (view (idx + 1))).2)).2 := ih2 (by omega)
        have harith : idx + ((paginated_extractionGo extract view rem (idx + 1)
            ((paginate (view (idx + 1))).2)).2 + 1) - 1 =
          idx + 1 + (paginated_extractionGo extract view rem (idx + 1)
            ((paginate (view (idx + 1))).2)).2 - 1 := by omega
        rw [harith]
        exact ih3 hlt'
      · intro j hj
        cases j with
        | zero =>
          intro hcon
          rw [Nat.add_zero] at hcon
          rw [hcon] at hnb
          exact absurd hnb (by simp)
        | succ j' =>
          have harith : idx + (j' + 1) = idx + 1 + j' := by omega
          rw [harith]
          exact ih4 j' (by omega)

/-- C9 (corrected claim, counterexample): pages advertise `1,2,3`; the Next
button is absent on every page but the pagination container itself is
clickable, so `paginate`'s fallback returns the container as `next_button`:
the loop runs the full 3 extraction passes instead of stopping on the absent
Next — refuting "stops earlier exactly when the Next button is absent or
disabled on the last visited page". -/
theorem pagination_next_absent_counterexample :
    (perform_paginated_extraction (fun _ => [])
        (fun _ => ⟨[1, 2, 3], .absent, true⟩)).2 = 3 ∧
    (paginate (⟨[1, 2, 3], .absent, true⟩ : PageView)).1 = 3 ∧
    (⟨[1, 2, 3], .absent, true⟩ : PageView).next = .absent := by
  exact ⟨by decide, by decide, by decide⟩

/-- C9 (amended): the paginated loop performs at most the discovered page
count of extraction passes, and it stops earlier exactly when `paginate`
returned no Next handle on the last visited page — that is, Next carried the
class `disabled`, or Next was absent and the fallback wait on the pagination
container itself timed out; an absent Next with a clickable container is
substituted by the container and does not stop the loop. -/
theorem perform_paginated_extraction_spec :
    ∀ (extract : Nat → List (List (Option String))) (view : Nat → PageView),
      (perform_paginated_extraction extract view).2 ≤ (paginate (view 0)).1 ∧
      ((perform_paginated_extraction extract view).2 < (paginate (view 0)).1 →
        1 ≤ (perform_paginated_extraction extract view).2 ∧
        (paginate (view ((perform_paginated_extraction extract view).2 - 1))).2 = none) ∧
      (∀ j, j + 1 < (perform_paginated_extraction extract view).2 →
        (paginate (view j)).2 ≠ none) := by
  intro extract view
  obtain ⟨h1, h2, h3, h4⟩ :=
    paginated_extractionGo_spec extract view (paginate (view 0)).1 0
  have hperf : perform_paginated_extraction extract view =
      paginated_extractionGo extract view (paginate (view 0)).1 0
        ((paginate (view 0)).2) := rfl
  rw [hperf]
  refine ⟨h1, ?_, ?_⟩
  · intro hlt
    refine ⟨h2 (by omega), ?_⟩
    have := h3 hlt
    simpa using this
  · intro j hj
    have := h4 j hj
    simpa using this

/-- Witness for `perform_paginated_extraction_spec`: two advertised pages
with Next disabled on the first page stop the loop after one pass. -/
theorem perform_paginated_extraction_spec_witness :
    (perform_paginated_extraction (fun _ => [])
        (fun _ => ⟨[1, 2], .disabled, true⟩)).2 ≤ 2 ∧
    (paginate ((fun _ => (⟨[1, 2], .disabled, true⟩ : PageView))
        ((perform_paginated_extraction (fun _ => [])
          (fun _ => ⟨[1, 2], .disabled, true⟩)).2 - 1))).2 = none := by
  refine ⟨?_, ?_⟩
  · exact le_trans (perform_paginated_extraction_spec (fun _ => [])
      (fun _ => ⟨[1, 2], .disabled, true⟩)).1 (by decide)
  · exact ((perform_paginated_extraction_spec (fun _ => [])
      (fun _ => ⟨[1, 2], .disabled, true⟩)).2.1 (by decide)).2

lemma extractionsGo_append :
    ∀ (xs ys : List (ExtractionStep × ExtOutcome))
      (v : Option (List (List (Option String)))),
      extractionsGo v (xs ++ ys) =
        extractionsGo v xs ++ extractionsGo (lastData v xs) ys := by
  intro xs
  induction xs with
  | nil => intro ys v; rfl
  | cons step rest ih =>
    intro ys v
    obtain ⟨s, outcome⟩ := step
    cases outcome with
    | ok rows => simp [extractionsGo, lastData, ih]
    | raised => simp [extractionsGo, lastData, ih]

/-- C10: the extraction loop is not atomic with respect to output: when an
extraction raises after a previous one succeeded, the stale rows of the
previous extraction are passed to `write_output` under the failing
extraction's output file; and when the first extraction raises, the write
step references the unbound `data` variable and the resulting error is only
logged (the loop continues). -/
theorem extractions_stale_data :
    (∀ (pre : List (ExtractionStep × ExtOutcome)) (f1 : String)
       (r1 : List (List (Option String))) (f2 : String)
       (rest : List (ExtractionStep × ExtOutcome)),
      extractions (pre ++ (⟨f1⟩, .ok r1) :: (⟨f2⟩, .raised) :: rest) =
        extractionsGo none pre ++
          WriteAttempt.wrote f1 r1 :: WriteAttempt.wrote f2 r1 ::
            extractionsGo (some r1) rest) ∧
    (∀ (f : String) (rest : List (ExtractionStep × ExtOutcome)),
      extractions ((⟨f⟩, .raised) :: rest) =
        WriteAttempt.unboundData f :: extractionsGo none rest) := by
  constructor
  · intro pre f1 r1 f2 rest
    unfold extractions
    rw [extractionsGo_append]
    rfl
  · intro f rest
    rfl

lemma pyReplaceChar_append (old : Char) (new a b : List Char) :
    pyReplaceChar old new (a ++ b) =
      pyReplaceChar old new a ++ pyReplaceChar old new b := by
  simp [pyReplaceChar]

lemma clean_chain_single (c : Char) :
    pyReplaceChar '\r' [] (pyReplaceChar '\n' [' '] (pyReplaceChar '\t' [' ']
      (pyReplaceChar ',' [] [c]))) = (cleanCharAmended c).toList := by
  by_cases h1 : c = ','
  · subst h1; rfl
  · by_cases h2 : c = '\t'
    · subst h2; rfl
    · by_cases h3 : c = '\n'
      · subst h3; rfl
      · by_cases h4 : c = '\r'
        · subst h4; rfl
        · simp [pyReplaceChar, cleanCharAmended, h1, h2, h3, h4]

lemma clean_chain_eq :
    ∀ (l : List Char),
      pyReplaceChar '\r' [] (pyReplaceChar '\n' [' '] (pyReplaceChar '\t' [' ']
        (pyReplaceChar ',' [] l))) = l.filterMap cleanCharAmended := by
  intro l
  induction l with
  | nil => rfl
  | cons c l ih =>
    have hc : (c :: l) = [c] ++ l := rfl
    rw [hc, pyReplaceChar_append, pyReplaceChar_append, pyReplaceChar_append,
      pyReplaceChar_append, clean_chain_single, ih, List.filterMap_append]
    cases hcc : cleanCharAmended c <;> simp [List.filterMap_cons, hcc]

/-- C3 (corrected claim, counterexample): on the cell text `" a,b "` with no
configured sentinels the code returns `" ab "` (no strip; the comma is
deleted, not replaced by a space), while the claimed cleaning (strip, then
comma/tab/newline/carriage-return each to a space) yields `"a b"`. -/
theorem sanitize_data_counterexample :
    sanitize_data " a,b " [] = some " ab " ∧
    sanitize_data_claimed " a,b " [] = some "a b" ∧
    sanitize_data " a,b " [] ≠ sanitize_data_claimed " a,b " [] := by
  exact ⟨by decide, by decide, by decide⟩

/-- C3 (amended): `sanitize_data` performs no strip; it deletes commas and
carriage returns, replaces tabs and newlines with spaces (a single
per-character pass), and returns null exactly when the cleaned string equals
a configured invalid sentinel, the cleaned string otherwise. -/
theorem sanitize_data_amended :
    ∀ (s : String) (invalid : List String),
      sanitize_data s invalid =
        (if String.mk (s.data.filterMap cleanCharAmended) ∈ invalid then none
         else some (String.mk (s.data.filterMap cleanCharAmended))) := by
  intro s invalid
  unfold sanitize_data
  rw [clean_chain_eq]

/-- C1 (corrected claim, counterexample): the `single element` extraction on
a page whose element text splits into `alpha` and `beta` yields ONE row
`["alpha", "beta"]` — no timestamp and no supplemental field is appended, so
the row does not have the claimed `…, <timestamp>, "meta1"` suffix for any
timestamp value. -/
theorem element_extraction_counterexample :
    perform_extraction_element "alpha&&&beta" [] = [[some "alpha", some "beta"]] ∧
    ¬ ∃ (pre : List (Option String)) (ts : String),
        ([some "alpha", some "beta"] : List (Option String)) =
          pre ++ [some ts, some "meta1"] := by
  constructor
  · decide
  · rintro ⟨pre, ts, h⟩
    have h2 := congrArg List.getLast? h
    rw [show pre ++ [some ts, some "meta1"] =
        (pre ++ [some ts]) ++ [some "meta1"] from by simp] at h2
    rw [List.getLast?_concat] at h2
    exact absurd h2 (by decide)

lemma suffix_of_append (A m : List (Option String)) (ts : String) :
    ∃ pre, (A ++ [some ts] ++ m) = pre ++ some ts :: m :=
  ⟨A, by simp⟩

lemma mem_issue_os_tableGo {view : Nat → OsPageView} {supp : List String}
    {ts : String} :
    ∀ {fuel idx : Nat} {r : List (Option String)},
      r ∈ issue_os_tableGo view supp ts fuel idx →
      ∃ i, r ∈ issue_os_page (view i) supp ts := by
  intro fuel
  induction fuel with
  | zero => intro idx r h; simp [issue_os_tableGo] at h
  | succ fuel ih =>
    intro idx r h
    rw [issue_os_tableGo] at h
    cases hp : paginate_tab (view idx) with
    | true =>
      rw [hp, if_pos rfl] at h
      rcases List.mem_append.mp h with h1 | h2
      · exact ⟨idx, h1⟩
      · exact ih h2
    | false =>
      rw [hp] at h
      simp only [Bool.false_eq_true, if_false] at h
      exact ⟨idx, h⟩

lemma issue_os_page_suffix {v : OsPageView} {supp : List String} {ts : String}
    {r : List (Option String)} :
    r ∈ issue_os_page v supp ts → ∃ pre, r = pre ++ some ts :: supp.map some := by
  intro h
  obtain ⟨cells, -, hres⟩ := List.mem_filterMap.mp h
  dsimp only at hres
  by_cases hlen : (issue_os_row cells supp ts).length = 7
  · rw [if_pos hlen] at hres
    injection hres with hres
    rw [← hres]
    exact suffix_of_append _ _ ts
  · rw [if_neg hlen] at hres
    exact absurd hres (by simp)

/-- C1 (amended): rows produced by the table extractions (`issuer_table`,
`issue_scale_table` and `issue_os_table`) are all suffixed by the timestamp
and then the supplemental-data fields; the `single element` extraction
instead emits a single row of cleaned text segments with no
timestamp/supplemental suffix — in the claimed scenario, the row passed to
the sink is `["alpha", "beta"]`. -/
theorem extraction_row_suffix_amended :
    (∀ (rows : List (List CellModel)) (invalid supp : List String) (ts : String)
       (r : List (Option String)),
      r ∈ issuer_table rows invalid supp ts →
      ∃ pre, r = pre ++ some ts :: supp.map some) ∧
    (∀ (rows : List (List ScaleCellModel)) (invalid supp : List String)
       (ts : String) (ocr : Option (String → String)) (r : List (Option String)),
      r ∈ issue_scale_table rows invalid supp ts ocr →
      ∃ pre, r = pre ++ some ts :: supp.map some) ∧
    (∀ (view : Nat → OsPageView) (supp : List String) (ts : String)
       (fuel : Nat) (r : List (Option String)),
      r ∈ issue_os_table view supp ts fuel →
      ∃ pre, r = pre ++ some ts :: supp.map some) ∧
    perform_extraction_element "alpha&&&beta" [] = [[some "alpha", some "beta"]] := by
  refine ⟨?_, ?_, ?_, by decide⟩
  · intro rows invalid supp ts r hr
    obtain ⟨cells, -, himg⟩ := List.mem_map.mp hr
    rw [← himg]
    exact suffix_of_append _ _ ts
  · intro rows invalid supp ts ocr r hr
    obtain ⟨cells, -, himg⟩ := List.mem_map.mp hr
    rw [← himg]
    exact suffix_of_append _ _ ts
  · intro view supp ts fuel r hr
    obtain ⟨i, hpage⟩ := mem_issue_os_tableGo hr
    exact issue_os_page_suffix hpage

/-- Witness for `extraction_row_suffix_amended`: a one-row, one-cell issuer
table, and a one-page OS tab whose row carries five links (7 fields total). -/
theorem extraction_row_suffix_amended_witness :
    (∃ pre, ([some "X", some "https://emma.msrb.org/abc", some "01/01/2026",
        some "m"] : List (Option String)) =
      pre ++ some "01/01/2026" :: (["m"].map some)) ∧
    (∃ pre, ([some "https://emma.msrb.org/a", some "https://emma.msrb.org/b",
        some "https://emma.msrb.org/c", some "https://emma.msrb.org/d",
        some "https://emma.msrb.org/e", some "01/01/2026",
        some "m"] : List (Option String)) =
      pre ++ some "01/01/2026" :: (["m"].map some)) := by
  constructor
  · exact extraction_row_suffix_amended.1 [[⟨"X", some "/abc"⟩]] [] ["m"]
      "01/01/2026" _ (by decide)
  · exact extraction_row_suffix_amended.2.2.1
      (fun _ => ⟨[[some "/a", some "/b", some "/c", some "/d", some "/e"]],
        .disabled⟩) ["m"] "01/01/2026" 1 _ (by decide)
